import Mathlib

/-
  Verification development for the ingress53 DNS registrar controller.

  The definitions below are a shallow embedding of the reconciliation engine:
  record types, the hostname scope check, the DNS resolver fallthrough loop,
  the prune stage, hostname deduplication, the action-homogeneous batcher and
  the ingress event handler. External effects (the DNS client exchange, the
  ownership index, the zone apex) are modelled as explicit environment
  parameters; machine state that the code threads through loops is passed
  explicitly.
-/

/-- A CNAME record: hostname and target, both plain strings. -/
structure cnameRecord where
  Hostname : String
  Target : String
deriving DecidableEq, Repr

/-- A queued change: an action string paired with a record. -/
structure cnameChange where
  Action : String
  Record : cnameRecord
deriving DecidableEq, Repr

/-- The route53 SDK constant ChangeActionUpsert. -/
def ChangeActionUpsert : String := "UPSERT"

/-- The route53 SDK constant ChangeActionDelete. -/
def ChangeActionDelete : String := "DELETE"

/-- Strip the characters of the cutset (here always the dot) from both ends
of a character list: the semantics of Go strings.Trim with cutset ".". -/
def trimDotsList (s : List Char) : List Char :=
  ((s.dropWhile (fun c => c = '.')).reverse.dropWhile (fun c => c = '.')).reverse

/-- String version of trimDotsList: the embedding of strings.Trim(s, "."). -/
def trimDots (s : String) : String :=
  ⟨trimDotsList s.data⟩

/-- Split a character list at its first dot: returns the (dot-free) label
before the first dot and everything after it, or none when no dot occurs.
This captures how the anchored pattern of one nonempty dot-free label,
a literal dot, then a fixed suffix consumes its input. -/
def firstLabelSplit : List Char → Option (List Char × List Char)
  | [] => none
  | c :: t =>
    if c = '.' then some ([], t)
    else
      match firstLabelSplit t with
      | some (l, r) => some (c :: l, r)
      | none => none

/-- The scope check canHandleRecord of the registrator: trims dots from both
the zone apex and the record (strings.Trim with cutset "."), then matches the
record against the regular expression composed of one nonempty dot-free label,
a literal dot, and the apex with its dots escaped, anchored at both ends.
The regular expression is modelled exactly for apexes whose characters are
not regex metacharacters other than the dot (the code escapes every dot; a
zone apex is a DNS name, which has no other metacharacters). -/
def canHandleRecord (zone record : String) : Bool :=
  let z := trimDotsList zone.data
  let r := trimDotsList record.data
  match firstLabelSplit r with
  | some (l, rest) => decide (l ≠ []) && decide (rest = z)
  | none => false

/-- The two error classes a resolution can end with: the distinguished
errDNSEmptyAnswer, or a transport error (distinguished by an opaque code). -/
inductive DNSError where
  | emptyAnswer : DNSError
  | transport : Nat → DNSError
deriving DecidableEq, Repr

/-- One answer resource record of a DNS reply: either a CNAME carrying a
target, or a record of some other type (opaque type code). -/
inductive rrAnswer where
  | cname : String → rrAnswer
  | other : Nat → rrAnswer
deriving DecidableEq, Repr

/-- The outcome of one dnsClient.Exchange call against one nameserver:
a transport failure or a reply with a list of answer records. -/
inductive exchangeResult where
  | transportFailure : Nat → exchangeResult
  | reply : List rrAnswer → exchangeResult
deriving DecidableEq, Repr

/-- The overall outcome of resolveCname: a target with nil error, an error,
or a runtime panic (the unchecked type assertion on the first answer). -/
inductive resolveOutcome where
  | ok : String → resolveOutcome
  | fail : DNSError → resolveOutcome
  | panicked : resolveOutcome
deriving DecidableEq, Repr

/-- The loop of resolveCname, with the remembered last error made explicit.
Each nameserver is tried in order: a transport error is remembered and the
next server tried; an empty answer is remembered as errDNSEmptyAnswer and the
next server tried; a reply with at least one answer ends the loop, yielding
the first answer target through an unchecked cast that panics when that
answer is not a CNAME. When the list is exhausted the remembered error (or
success with the zero-value target) is returned. -/
def resolveAux (exch : String → String → exchangeResult) (name : String) :
    List String → Option DNSError → resolveOutcome
  | [], none => .ok ""
  | [], some e => .fail e
  | ns :: rest, _e =>
    match exch name ns with
    | .transportFailure c => resolveAux exch name rest (some (.transport c))
    | .reply [] => resolveAux exch name rest (some .emptyAnswer)
    | .reply (a :: _) =>
      match a with
      | .cname t => .ok t
      | .other _ => .panicked

/-- resolveCname of the source: runs the nameserver loop with no error and
the empty target remembered initially. The Exchange call of the global DNS
client is abstracted as the function exch from (name, nameserver) to result. -/
def resolveCname (name : String) (nameservers : List String)
    (exch : String → String → exchangeResult) : resolveOutcome :=
  resolveAux exch name nameservers none

/-- A per-server outcome that carries no usable answer: a transport failure
or a reply with zero answer records. -/
def noAnswer (r : exchangeResult) : Prop :=
  (∃ c, r = .transportFailure c) ∨ r = .reply []

/-- The error that one answerless exchange outcome is remembered as. -/
def errOf : exchangeResult → DNSError
  | .transportFailure c => .transport c
  | .reply _ => .emptyAnswer

/-- stringInSlice of the source: membership of a string in a slice. -/
def stringInSlice (s : String) (slice : List String) : Bool :=
  slice.any (fun x => decide (s = x))

/-- recordHostnameInSlice of the source: is some record of the slice
carrying the given hostname. -/
def recordHostnameInSlice (h : String) (records : List cnameRecord) : Bool :=
  records.any (fun x => decide (h = x.Hostname))

/-- recordTargetsAllMatch of the source: do all records of the slice carry
the given target. -/
def recordTargetsAllMatch (target : String) (records : List cnameRecord) : Bool :=
  records.all (fun r => decide (target = r.Target))

/-- diffStringSlices of the source: the order-preserving list of elements of
the first slice that do not occur in the second. -/
def diffStringSlices (a b : List String) : List String :=
  a.filter (fun va => !stringInSlice va b)

/-- Pair every element of a list with its index, starting from the given
counter: the index bookkeeping of a Go range loop over a slice. -/
def enumFromIdx : Nat → List cnameRecord → List (Nat × cnameRecord)
  | _, [] => []
  | n, r :: rest => (n, r) :: enumFromIdx (n + 1) rest

/-- The duplicates gathered by uniqueRecords for the record at index i: all
records of the batch at a different index that carry the same hostname. -/
def duplicatesOf (records : List cnameRecord) (i : Nat) (r1 : cnameRecord) :
    List cnameRecord :=
  ((enumFromIdx 0 records).filter
    (fun p => decide (p.1 ≠ i) && decide (r1.Hostname = p.2.Hostname))).map
    (fun p => p.2)

/-- The indexed loop of uniqueRecords, with the uniqueRecords and
rejectedRecords accumulators made explicit. A record whose hostname was
already rejected or already kept is skipped; otherwise it is kept when every
duplicate carries its target, and its hostname is rejected when not. -/
def uniqueGo (all : List cnameRecord) :
    List (Nat × cnameRecord) → List cnameRecord → List String →
    List cnameRecord × List String
  | [], uniq, rej => (uniq, rej)
  | (i, r1) :: rest, uniq, rej =>
    if stringInSlice r1.Hostname rej || recordHostnameInSlice r1.Hostname uniq then
      uniqueGo all rest uniq rej
    else if recordTargetsAllMatch r1.Target (duplicatesOf all i r1) then
      uniqueGo all rest (uniq ++ [r1]) rej
    else
      uniqueGo all rest uniq (rej ++ [r1.Hostname])

/-- uniqueRecords of the source together with its rejectedRecords list:
the deduplicated batch and the hostnames refused because the batch carries
them with differing targets. -/
def uniqueRecordsFull (records : List cnameRecord) :
    List cnameRecord × List String :=
  uniqueGo records (enumFromIdx 0 records) [] []

/-- uniqueRecords of the source: the surviving deduplicated batch. -/
def uniqueRecords (records : List cnameRecord) : List cnameRecord :=
  (uniqueRecordsFull records).1

/-- The rejectedRecords list accumulated by uniqueRecords; the code adds its
length to metricUpdatesRejected (when nonzero). -/
def uniqueRejected (records : List cnameRecord) : List String :=
  (uniqueRecordsFull records).2

/-- Does every record of the batch carrying the given hostname carry the
given target. For a record of the batch this is exactly what
recordTargetsAllMatch decides about its duplicates. -/
def sameTargets (all : List cnameRecord) (h t : String) : Bool :=
  all.all (fun r2 => !decide (r2.Hostname = h) || decide (t = r2.Target))

/-- Is the batch free of target conflicts at the given hostname: any two of
its records carrying the hostname carry one common target. -/
def conflictFreeB (all : List cnameRecord) (h : String) : Bool :=
  all.all (fun r1 => !decide (r1.Hostname = h) || sameTargets all h r1.Target)

/-- First-occurrence deduplication of a list of strings, skipping elements
already seen in the accumulated prefix. -/
def dedupFirstFrom (seen : List String) : List String → List String
  | [] => []
  | h :: t =>
    if stringInSlice h seen then dedupFirstFrom seen t
    else h :: dedupFirstFrom (seen ++ [h]) t

/-- The environment the prune stage consults: the zone apex (Domain of the
zone mutator), the ownership index (HostnameOwners of the ingress watcher),
and the live CNAME resolution, abstracted as the (target, error) pair that
resolveCname returns for the queried fully-qualified name. A nil error with
target t is ok t; a non-nil error is error e. -/
structure PruneEnv where
  domain : String
  owners : String → List String
  resolve : String → Except DNSError String

/-- The fully-qualified query name prune builds for a hostname:
the hostname with dots trimmed from both ends, then a trailing dot. -/
def fqdn (h : String) : String :=
  trimDots h ++ "."

/-- The per-record filtering loop of pruneBatch. A record out of scope is
dropped (and counted separately by pruneScopeRejected). For DELETE, a record
still claimed by a live ingress is dropped; an unclaimed record is kept when
resolution succeeded or failed with an error other than errDNSEmptyAnswer.
For UPSERT, a record is kept when resolution failed or the resolved target,
dots trimmed, differs from the record target. An action string other than
the two route53 constants falls through the switch and keeps nothing. -/
def pruneLoop (env : PruneEnv) (action : String) :
    List cnameRecord → List cnameRecord
  | [] => []
  | u :: rest =>
    if !canHandleRecord env.domain u.Hostname then
      pruneLoop env action rest
    else if action = ChangeActionDelete then
      if !(env.owners u.Hostname).isEmpty then
        pruneLoop env action rest
      else
        match env.resolve (fqdn u.Hostname) with
        | .ok _ => u :: pruneLoop env action rest
        | .error e =>
          if e ≠ DNSError.emptyAnswer then u :: pruneLoop env action rest
          else pruneLoop env action rest
    else if action = ChangeActionUpsert then
      match env.resolve (fqdn u.Hostname) with
      | .error _ => u :: pruneLoop env action rest
      | .ok t =>
        if trimDots t ≠ u.Target then u :: pruneLoop env action rest
        else pruneLoop env action rest
    else
      pruneLoop env action rest

/-- The number of metricUpdatesRejected increments the scope check performs
while pruning a batch: one per record canHandleRecord refuses. -/
def pruneScopeRejected (env : PruneEnv) : List cnameRecord → Nat
  | [] => 0
  | u :: rest =>
    (if !canHandleRecord env.domain u.Hostname then 1 else 0) +
      pruneScopeRejected env rest

/-- pruneBatch of the source: the per-record filtering loop followed by
hostname deduplication. -/
def pruneBatch (env : PruneEnv) (action : String)
    (records : List cnameRecord) : List cnameRecord :=
  uniqueRecords (pruneLoop env action records)

/-- A call applyBatch places on the zone mutator. -/
inductive mutatorCall where
  | upsertCnames : List cnameRecord → mutatorCall
  | deleteCnames : List cnameRecord → mutatorCall
deriving DecidableEq, Repr

/-- applyBatch of the source, seen as the mutator call it performs: prune
the records of the batch under the action of the first change, do nothing
when the pruned batch is empty, and otherwise call DeleteCnames when that
action is the delete constant and UpsertCnames when not. The dry-run flag,
which only suppresses the call, is modelled as off. On the empty changes
slice the code would fault indexing changes[0]; the loop never passes one,
and the model returns no call. -/
def applyBatch (env : PruneEnv) (changes : List cnameChange) :
    Option mutatorCall :=
  match changes with
  | [] => none
  | c0 :: _ =>
    let pruned := pruneBatch env c0.Action (changes.map (fun c => c.Record))
    if pruned.isEmpty then none
    else if c0.Action = ChangeActionDelete then some (.deleteCnames pruned)
    else some (.upsertCnames pruned)

/-- One iteration input of the select loop of processUpdateQueue: a change
received from the update queue, or an empty-queue poll (the default branch).
The stop signal is the end of the event list. -/
inductive queueEvent where
  | recv : cnameChange → queueEvent
  | idle : queueEvent
deriving DecidableEq, Repr

/-- The select loop of processUpdateQueue, seen as the sequence of batches it
hands to applyBatch. A received change whose delete-ness differs from that of
the first buffered change flushes the buffer before being appended (to a
fresh buffer); an idle poll flushes a nonempty buffer; the stop signal
flushes whatever remains. -/
def processUpdateQueue : List queueEvent → List cnameChange →
    List (List cnameChange)
  | [], buf => if buf.isEmpty then [] else [buf]
  | .recv c :: rest, buf =>
    match buf with
    | [] => processUpdateQueue rest [c]
    | b0 :: _ =>
      if (b0.Action = ChangeActionDelete ∧ c.Action ≠ ChangeActionDelete) ∨
          (b0.Action ≠ ChangeActionDelete ∧ c.Action = ChangeActionDelete) then
        buf :: processUpdateQueue rest [c]
      else
        processUpdateQueue rest (buf ++ [c])
  | .idle :: rest, buf =>
    if buf.isEmpty then processUpdateQueue rest buf
    else buf :: processUpdateQueue rest []

/-- An observed ingress: its name, its label mapping (association list with
map semantics, first binding per key), and the hosts of its rules in order. -/
structure Ingress where
  name : String
  labels : List (String × String)
  ruleHosts : List String
deriving DecidableEq, Repr

/-- Label lookup: the value bound to the key, when present. -/
def lookupLabel (ls : List (String × String)) (k : String) : Option String :=
  (ls.find? (fun p => decide (p.1 = k))).map (fun p => p.2)

/-- Go map indexing on the label mapping: the bound value, or the zero value
(the empty string) when the key is absent. -/
def labelIndex (ls : List (String × String)) (k : String) : String :=
  (lookupLabel ls k).getD ""

/-- One selector-and-target pair. Every selector the registrator builds is
the equality requirement TargetLabelName = target, so a pair is modelled as
its key and target; it matches a label set when the key is bound exactly to
the target. -/
structure selectorAndTarget where
  key : String
  target : String
deriving DecidableEq, Repr

/-- Label-selector matching for the equality requirement key = value: the
label set binds the key and binds it to the value. -/
def selectorMatches (key value : String) (ls : List (String × String)) : Bool :=
  decide (lookupLabel ls key = some value)

/-- The sats list newRegistratorWithOptions builds: one pair per configured
target, in the configured order, each with selector TargetLabelName = target. -/
def mkSats (key : String) (targets : List String) : List selectorAndTarget :=
  targets.map (fun t => ⟨key, t⟩)

/-- getTargetForIngress of the source: the target of the first
selector-and-target pair whose selector matches the labels of the ingress,
or the empty string when none matches. -/
def getTargetForIngress (sats : List selectorAndTarget) (ing : Ingress) :
    String :=
  match sats.find? (fun sat => selectorMatches sat.key sat.target ing.labels) with
  | some sat => sat.target
  | none => ""

/-- Modelled from the spec: getHostnamesFromIngress lives in an ingress
watcher file that is not under src/ (only its tests and callers are). Per the
spec it returns the ordered, de-duplicated list of rule hosts preserving
first-occurrence order. -/
def getHostnamesFromIngress (ing : Ingress) : List String :=
  ing.ruleHosts.foldl
    (fun acc h => if stringInSlice h acc then acc else acc ++ [h]) []

/-- The watch event types the handler distinguishes; every other event type
falls into the default branch and enqueues nothing. -/
inductive eventType where
  | added : eventType
  | modified : eventType
  | deleted : eventType
  | otherEvent : eventType
deriving DecidableEq, Repr

/-- queueUpdates of the source: one change per hostname, in order, all with
the one action and target. -/
def queueUpdates (action : String) (hostnames : List String) (target : String) :
    List cnameChange :=
  hostnames.map (fun h => ⟨action, ⟨h, target⟩⟩)

/-- The handler of the registrator, seen as the list of changes it enqueues
for one event, in queue order. ADDED upserts the new hostnames at the new
target unless the target is empty or no hostname was extracted. MODIFIED
first applies the no-op guard (no removed hostnames and an unchanged value
of the target label key), then enqueues upserts for the new state and
deletions of the removed hostnames at the old target, each side subject to
its own emptiness guards. DELETED deletes the old hostnames unless the old
target is empty or no hostname was extracted. -/
def handlerChanges (sats : List selectorAndTarget) (key : String) :
    eventType → Ingress → Ingress → List cnameChange
  | .added, _old, newIng =>
    let hostnames := getHostnamesFromIngress newIng
    let target := getTargetForIngress sats newIng
    if target = "" then []
    else if hostnames.isEmpty then []
    else queueUpdates ChangeActionUpsert hostnames target
  | .modified, oldIng, newIng =>
    let newHostnames := getHostnamesFromIngress newIng
    let newTarget := getTargetForIngress sats newIng
    let oldHostnames := getHostnamesFromIngress oldIng
    let oldTarget := getTargetForIngress sats oldIng
    let diffHostnames := diffStringSlices oldHostnames newHostnames
    if diffHostnames.isEmpty ∧
        labelIndex newIng.labels key = labelIndex oldIng.labels key then []
    else
      (if newTarget = "" then []
       else if newHostnames.isEmpty then []
       else queueUpdates ChangeActionUpsert newHostnames newTarget) ++
      (if oldTarget = "" then []
       else if diffHostnames.isEmpty then []
       else queueUpdates ChangeActionDelete diffHostnames oldTarget)
  | .deleted, oldIng, _new =>
    let hostnames := getHostnamesFromIngress oldIng
    let target := getTargetForIngress sats oldIng
    if target = "" then []
    else if hostnames.isEmpty then []
    else queueUpdates ChangeActionDelete hostnames target
  | .otherEvent, _, _ => []

/-- The decision the filtering loop of pruneBatch takes for one record,
read off the loop: in scope, and then the action-specific policy. -/
def pruneKeep (env : PruneEnv) (action : String) (u : cnameRecord) : Bool :=
  canHandleRecord env.domain u.Hostname &&
    (if action = ChangeActionDelete then
      (env.owners u.Hostname).isEmpty &&
        (match env.resolve (fqdn u.Hostname) with
         | .ok _ => true
         | .error e => decide (e ≠ DNSError.emptyAnswer))
    else if action = ChangeActionUpsert then
      (match env.resolve (fqdn u.Hostname) with
       | .error _ => true
       | .ok t => decide (trimDots t ≠ u.Target))
    else false)

/-- The loop of uniqueRecords with the index bookkeeping replaced by an
arbitrary per-record decision; the lemmas below show the indexed loop
reduces to this with the decision of keeping a record being that the batch
is conflict-free at its hostname. -/
def uniqueSimple (dec : cnameRecord → Bool) :
    List cnameRecord → List cnameRecord → List String →
    List cnameRecord × List String
  | [], uniq, rej => (uniq, rej)
  | r :: rest, uniq, rej =>
    if stringInSlice r.Hostname rej || recordHostnameInSlice r.Hostname uniq then
      uniqueSimple dec rest uniq rej
    else if dec r then
      uniqueSimple dec rest (uniq ++ [r]) rej
    else
      uniqueSimple dec rest uniq (rej ++ [r.Hostname])

/-- Is one event of the select loop either the idle poll or the receipt of a
change carrying one of the two actions the handler ever enqueues. -/
def actionOkB : queueEvent → Bool
  | .recv c =>
    decide (c.Action = ChangeActionUpsert) || decide (c.Action = ChangeActionDelete)
  | .idle => true

/-- The two-record batch claiming one hostname with differing targets, as in
scenario S4 of the spec. -/
def conflictPair : List cnameRecord :=
  [⟨"shared.example.com", "public"⟩, ⟨"shared.example.com", "private"⟩]

/-- A concrete prune environment for witnesses: zone apex example.com, no
hostname claimed, every query resolving to one live target. -/
def wEnv : PruneEnv :=
  ⟨"example.com", fun _ => [], fun _ => Except.ok "lb.example.com."⟩

/-- A concrete in-scope record for witnesses. -/
def wRec : cnameRecord :=
  ⟨"foo.example.com", "priv.example.com"⟩

/-! Helper lemmas about the slice and string helpers. -/

lemma stringInSlice_true_iff (s : String) (l : List String) :
    stringInSlice s l = true ↔ s ∈ l := by
  simp only [stringInSlice, List.any_eq_true, decide_eq_true_iff]
  exact ⟨fun ⟨x, hx, he⟩ => he ▸ hx, fun hs => ⟨s, hs, rfl⟩⟩

lemma recordHostnameInSlice_true_iff (h : String) (l : List cnameRecord) :
    recordHostnameInSlice h l = true ↔ ∃ r ∈ l, r.Hostname = h := by
  simp only [recordHostnameInSlice, List.any_eq_true, decide_eq_true_iff]
  exact ⟨fun ⟨x, hx, he⟩ => ⟨x, hx, he.symm⟩, fun ⟨x, hx, he⟩ => ⟨x, hx, he.symm⟩⟩

lemma recordTargetsAllMatch_true_iff (t : String) (l : List cnameRecord) :
    recordTargetsAllMatch t l = true ↔ ∀ r ∈ l, r.Target = t := by
  simp only [recordTargetsAllMatch, List.all_eq_true, decide_eq_true_iff]
  exact ⟨fun H r hr => (H r hr).symm, fun H r hr => (H r hr).symm⟩

lemma sameTargets_true_iff (all : List cnameRecord) (h t : String) :
    sameTargets all h t = true ↔ ∀ r2 ∈ all, r2.Hostname = h → r2.Target = t := by
  simp only [sameTargets, List.all_eq_true, Bool.or_eq_true, Bool.not_eq_true',
    decide_eq_false_iff_not, decide_eq_true_iff]
  constructor
  · intro H r hr he
    rcases H r hr with hne | hs
    · exact absurd he hne
    · exact hs.symm
  · intro H r hr
    by_cases he : r.Hostname = h
    · exact Or.inr (H r hr he).symm
    · exact Or.inl he

lemma conflictFreeB_true_iff (all : List cnameRecord) (h : String) :
    conflictFreeB all h = true ↔
      ∀ r1 ∈ all, r1.Hostname = h → ∀ r2 ∈ all, r2.Hostname = h →
        r1.Target = r2.Target := by
  simp only [conflictFreeB, List.all_eq_true, Bool.or_eq_true, Bool.not_eq_true',
    decide_eq_false_iff_not, decide_eq_true_iff]
  constructor
  · intro H r1 h1 e1 r2 h2 e2
    rcases H r1 h1 with hne | hs
    · exact absurd e1 hne
    · exact ((sameTargets_true_iff all h r1.Target).1 hs r2 h2 e2).symm
  · intro H r1 h1
    by_cases e1 : r1.Hostname = h
    · refine Or.inr ((sameTargets_true_iff all h r1.Target).2 ?_)
      intro r2 h2 e2
      exact (H r1 h1 e1 r2 h2 e2).symm
    · exact Or.inl e1

lemma firstLabelSplit_of_label (l r : List Char) (hl : '.' ∉ l) :
    firstLabelSplit (l ++ '.' :: r) = some (l, r) := by
  induction l with
  | nil => simp [firstLabelSplit]
  | cons c t ih =>
    have hc : ¬ c = '.' := fun hcc => hl (hcc ▸ List.mem_cons_self c t)
    have ht : '.' ∉ t := fun hm => hl (List.mem_cons_of_mem c hm)
    simp [firstLabelSplit, hc, ih ht]

lemma firstLabelSplit_sound :
    ∀ (s l r : List Char), firstLabelSplit s = some (l, r) →
      s = l ++ '.' :: r ∧ '.' ∉ l := by
  intro s
  induction s with
  | nil => intro l r hme; simp [firstLabelSplit] at hme
  | cons c t ih =>
    intro l r hme
    by_cases hc : c = '.'
    · subst hc
      simp [firstLabelSplit] at hme
      obtain ⟨hl, hr⟩ := hme
      subst hl; subst hr
      simp
    · simp only [firstLabelSplit, if_neg hc] at hme
      cases hsplit : firstLabelSplit t with
      | none => rw [hsplit] at hme; simp at hme
      | some p =>
        rw [hsplit] at hme
        obtain ⟨l', r'⟩ := p
        simp only [Option.some.injEq, Prod.mk.injEq] at hme
        obtain ⟨hl, hr⟩ := hme
        obtain ⟨ht, hnl⟩ := ih l' r' hsplit
        subst hl; subst hr; subst ht
        constructor
        · simp
        · intro hm
          rcases List.mem_cons.1 hm with hm1 | hm2
          · exact hc hm1.symm
          · exact hnl hm2

lemma enumFromIdx_fst_ge :
    ∀ (n : Nat) (l : List cnameRecord) (p : Nat × cnameRecord),
      p ∈ enumFromIdx n l → n ≤ p.1 := by
  intro n l
  induction l generalizing n with
  | nil => intro p hp; simp [enumFromIdx] at hp
  | cons x t ih =>
    intro p hp
    simp only [enumFromIdx, List.mem_cons] at hp
    rcases hp with hp | hp
    · subst hp; exact Nat.le_refl n
    · exact Nat.le_of_succ_le (ih (n + 1) p hp)

lemma enumFromIdx_mem :
    ∀ (n : Nat) (l : List cnameRecord) (i : Nat) (r : cnameRecord),
      (i, r) ∈ enumFromIdx n l → r ∈ l := by
  intro n l
  induction l generalizing n with
  | nil => intro i r hp; simp [enumFromIdx] at hp
  | cons x t ih =>
    intro i r hp
    simp only [enumFromIdx, List.mem_cons, Prod.mk.injEq] at hp
    rcases hp with ⟨_, hp⟩ | hp
    · exact hp ▸ List.mem_cons_self x t
    · exact List.mem_cons_of_mem x (ih (n + 1) i r hp)

lemma enumFromIdx_exists_idx :
    ∀ (n : Nat) (l : List cnameRecord) (r : cnameRecord),
      r ∈ l → ∃ i, (i, r) ∈ enumFromIdx n l := by
  intro n l
  induction l generalizing n with
  | nil => intro r hr; simp at hr
  | cons x t ih =>
    intro r hr
    rcases List.mem_cons.1 hr with hr | hr
    · exact ⟨n, by simp [enumFromIdx, hr]⟩
    · obtain ⟨i, hi⟩ := ih (n + 1) r hr
      exact ⟨i, by simp [enumFromIdx]; exact Or.inr hi⟩

lemma enumFromIdx_inj :
    ∀ (n : Nat) (l : List cnameRecord) (i : Nat) (r r2 : cnameRecord),
      (i, r) ∈ enumFromIdx n l → (i, r2) ∈ enumFromIdx n l → r = r2 := by
  intro n l
  induction l generalizing n with
  | nil => intro i r r2 h1 _; simp [enumFromIdx] at h1
  | cons x t ih =>
    intro i r r2 h1 h2
    simp only [enumFromIdx, List.mem_cons, Prod.mk.injEq] at h1 h2
    rcases h1 with ⟨hi1, hr1⟩ | h1
    · rcases h2 with ⟨_, hr2⟩ | h2
      · exact hr1.trans hr2.symm
      · exact absurd (enumFromIdx_fst_ge (n + 1) t (i, r2) h2) (by omega)
    · rcases h2 with ⟨hi2, _⟩ | h2
      · exact absurd (enumFromIdx_fst_ge (n + 1) t (i, r) h1) (by omega)
      · exact ih (n + 1) i r r2 h1 h2

lemma enumFromIdx_map_snd :
    ∀ (n : Nat) (l : List cnameRecord),
      (enumFromIdx n l).map Prod.snd = l := by
  intro n l
  induction l generalizing n with
  | nil => rfl
  | cons x t ih => simp [enumFromIdx, ih]

lemma mem_duplicatesOf (all : List cnameRecord) (i : Nat) (r x : cnameRecord) :
    x ∈ duplicatesOf all i r ↔
      ∃ j, j ≠ i ∧ (j, x) ∈ enumFromIdx 0 all ∧ r.Hostname = x.Hostname := by
  simp only [duplicatesOf, List.mem_map, List.mem_filter, Bool.and_eq_true,
    decide_eq_true_iff]
  constructor
  · rintro ⟨⟨j, y⟩, ⟨hmem, hj, hh⟩, rfl⟩
    exact ⟨j, hj, hmem, hh⟩
  · rintro ⟨j, hj, hmem, hh⟩
    exact ⟨(j, x), ⟨hmem, hj, hh⟩, rfl⟩

lemma recordTargetsAllMatch_duplicates (all : List cnameRecord) (i : Nat)
    (r : cnameRecord) (hi : (i, r) ∈ enumFromIdx 0 all) :
    recordTargetsAllMatch r.Target (duplicatesOf all i r)
      = sameTargets all r.Hostname r.Target := by
  have hiff : recordTargetsAllMatch r.Target (duplicatesOf all i r) = true ↔
      sameTargets all r.Hostname r.Target = true := by
    rw [recordTargetsAllMatch_true_iff, sameTargets_true_iff]
    constructor
    · intro Hd r2 hr2 he
      obtain ⟨j, hj⟩ := enumFromIdx_exists_idx 0 all r2 hr2
      by_cases hij : j = i
      · subst hij
        rw [enumFromIdx_inj 0 all j r2 r hj hi]
      · exact Hd r2 ((mem_duplicatesOf all i r r2).2 ⟨j, hij, hj, he.symm⟩)
    · intro Hs x hx
      obtain ⟨j, _, hmem, hh⟩ := (mem_duplicatesOf all i r x).1 hx
      exact Hs x (enumFromIdx_mem 0 all j x hmem) hh.symm
  cases hb1 : recordTargetsAllMatch r.Target (duplicatesOf all i r) <;>
    cases hb2 : sameTargets all r.Hostname r.Target <;>
      simp_all

lemma uniqueGo_eq_simple (all : List cnameRecord) (dec : cnameRecord → Bool) :
    ∀ (l : List (Nat × cnameRecord)) (uniq : List cnameRecord) (rej : List String),
      (∀ p ∈ l, recordTargetsAllMatch p.2.Target (duplicatesOf all p.1 p.2) = dec p.2) →
      uniqueGo all l uniq rej = uniqueSimple dec (l.map Prod.snd) uniq rej := by
  intro l
  induction l with
  | nil => intro uniq rej _; rfl
  | cons p rest ih =>
    intro uniq rej hdec
    obtain ⟨i, r1⟩ := p
    have hd := hdec (i, r1) (List.mem_cons_self _ _)
    have hrest := fun q hq => hdec q (List.mem_cons_of_mem _ hq)
    simp only [uniqueGo, uniqueSimple, List.map_cons]
    rw [hd]
    by_cases h1 :
        (stringInSlice r1.Hostname rej || recordHostnameInSlice r1.Hostname uniq) = true
    · simp [h1, ih _ _ hrest]
    · by_cases h2 : dec r1 = true
      · simp [h1, h2, ih _ _ hrest]
      · simp [h1, h2, ih _ _ hrest]

lemma uniqueSimple_congr (dec1 dec2 : cnameRecord → Bool) :
    ∀ (l uniq : List cnameRecord) (rej : List String),
      (∀ r ∈ l, dec1 r = dec2 r) →
      uniqueSimple dec1 l uniq rej = uniqueSimple dec2 l uniq rej := by
  intro l
  induction l with
  | nil => intro uniq rej _; rfl
  | cons r rest ih =>
    intro uniq rej hdec
    have hd := hdec r (List.mem_cons_self _ _)
    have hrest := fun q hq => hdec q (List.mem_cons_of_mem _ hq)
    simp only [uniqueSimple]
    rw [hd]
    by_cases h1 :
        (stringInSlice r.Hostname rej || recordHostnameInSlice r.Hostname uniq) = true
    · simp [h1, ih _ _ hrest]
    · by_cases h2 : dec2 r = true
      · simp [h1, h2, ih _ _ hrest]
      · simp [h1, h2, ih _ _ hrest]

lemma sameTargets_eq_conflictFreeB (all : List cnameRecord) (r : cnameRecord)
    (hr : r ∈ all) :
    sameTargets all r.Hostname r.Target = conflictFreeB all r.Hostname := by
  have hiff : sameTargets all r.Hostname r.Target = true ↔
      conflictFreeB all r.Hostname = true := by
    rw [sameTargets_true_iff, conflictFreeB_true_iff]
    constructor
    · intro H r1 h1 e1 r2 h2 e2
      rw [H r1 h1 e1, H r2 h2 e2]
    · intro H r2 h2 e2
      exact H r2 h2 e2 r hr rfl
  cases hb1 : sameTargets all r.Hostname r.Target <;>
    cases hb2 : conflictFreeB all r.Hostname <;>
      simp_all

lemma uniqueRecordsFull_eq (records : List cnameRecord) :
    uniqueRecordsFull records =
      uniqueSimple (fun r => conflictFreeB records r.Hostname) records [] [] := by
  have h1 : uniqueGo records (enumFromIdx 0 records) [] []
      = uniqueSimple (fun r => sameTargets records r.Hostname r.Target)
          ((enumFromIdx 0 records).map Prod.snd) [] [] :=
    uniqueGo_eq_simple records _ _ [] []
      (fun p hp => recordTargetsAllMatch_duplicates records p.1 p.2 hp)
  rw [uniqueRecordsFull, h1, enumFromIdx_map_snd]
  exact uniqueSimple_congr _ _ records [] []
    (fun r hr => sameTargets_eq_conflictFreeB records r hr)

lemma stringInSlice_append (s : String) (a b : List String) :
    stringInSlice s (a ++ b) = (stringInSlice s a || stringInSlice s b) :=
  List.any_append

lemma recordHostnameInSlice_append (h : String) (a b : List cnameRecord) :
    recordHostnameInSlice h (a ++ b)
      = (recordHostnameInSlice h a || recordHostnameInSlice h b) :=
  List.any_append

lemma stringInSlice_singleton (s x : String) :
    stringInSlice s [x] = decide (s = x) := by
  simp [stringInSlice]

lemma recordHostnameInSlice_singleton (h : String) (r : cnameRecord) :
    recordHostnameInSlice h [r] = decide (h = r.Hostname) := by
  simp [recordHostnameInSlice]

lemma uniqueSimple_count (ok : String → Bool) :
    ∀ (l uniq : List cnameRecord) (rej : List String) (h : String),
      ((uniqueSimple (fun r => ok r.Hostname) l uniq rej).1.filter
        (fun r => decide (r.Hostname = h))).length
      = (uniq.filter (fun r => decide (r.Hostname = h))).length +
        (if !stringInSlice h rej && !recordHostnameInSlice h uniq &&
            l.any (fun r => decide (r.Hostname = h)) && ok h then 1 else 0) := by
  intro l
  induction l with
  | nil => intro uniq rej h; simp [uniqueSimple]
  | cons r rest ih =>
    intro uniq rej h
    by_cases hc1 :
        (stringInSlice r.Hostname rej || recordHostnameInSlice r.Hostname uniq) = true
    · rw [show uniqueSimple (fun x => ok x.Hostname) (r :: rest) uniq rej
          = uniqueSimple (fun x => ok x.Hostname) rest uniq rej from by
        simp [uniqueSimple, hc1]]
      rw [ih uniq rej h]
      by_cases hrh : r.Hostname = h
      · rw [Bool.or_eq_true] at hc1
        rcases hc1 with hin | hin
        · rw [hrh] at hin; simp [hin]
        · rw [hrh] at hin; simp [hin]
      · simp [List.any_cons, hrh]
    · have hc1' := hc1
      simp only [Bool.or_eq_true, not_or, Bool.not_eq_true] at hc1'
      obtain ⟨hnr, hnu⟩ := hc1'
      by_cases hok : ok r.Hostname = true
      · rw [show uniqueSimple (fun x => ok x.Hostname) (r :: rest) uniq rej
            = uniqueSimple (fun x => ok x.Hostname) rest (uniq ++ [r]) rej from by
          simp [uniqueSimple, hc1, hok]]
        rw [ih (uniq ++ [r]) rej h]
        rw [List.filter_append, List.length_append]
        by_cases hrh : r.Hostname = h
        · subst hrh
          simp [recordHostnameInSlice_append, recordHostnameInSlice_singleton,
            hnr, hnu, hok, List.any_cons]
        · have hhr : ¬ h = r.Hostname := fun e => hrh (Eq.symm e)
          simp [recordHostnameInSlice_append, recordHostnameInSlice_singleton,
            List.any_cons, hrh, hhr]
      · rw [show uniqueSimple (fun x => ok x.Hostname) (r :: rest) uniq rej
            = uniqueSimple (fun x => ok x.Hostname) rest uniq (rej ++ [r.Hostname]) from by
          simp [uniqueSimple, hc1, hok]]
        rw [ih uniq (rej ++ [r.Hostname]) h]
        by_cases hrh : r.Hostname = h
        · subst hrh
          have hokf : ok r.Hostname = false := Bool.eq_false_iff.2 hok
          simp [stringInSlice_append, stringInSlice_singleton, hokf, List.any_cons]
        · have hhr : ¬ h = r.Hostname := fun e => hrh (Eq.symm e)
          simp [stringInSlice_append, stringInSlice_singleton, List.any_cons,
            hhr, hrh]

lemma uniqueSimple_fst_subset (dec : cnameRecord → Bool) :
    ∀ (l uniq : List cnameRecord) (rej : List String) (r : cnameRecord),
      r ∈ (uniqueSimple dec l uniq rej).1 → r ∈ uniq ∨ r ∈ l := by
  intro l
  induction l with
  | nil => intro uniq rej r hr; exact Or.inl hr
  | cons x rest ih =>
    intro uniq rej r hr
    by_cases hc1 :
        (stringInSlice x.Hostname rej || recordHostnameInSlice x.Hostname uniq) = true
    · rw [show uniqueSimple dec (x :: rest) uniq rej
          = uniqueSimple dec rest uniq rej from by simp [uniqueSimple, hc1]] at hr
      rcases ih uniq rej r hr with hu | hl
      · exact Or.inl hu
      · exact Or.inr (List.mem_cons_of_mem x hl)
    · by_cases hdec : dec x = true
      · rw [show uniqueSimple dec (x :: rest) uniq rej
            = uniqueSimple dec rest (uniq ++ [x]) rej from by
          simp [uniqueSimple, hc1, hdec]] at hr
        rcases ih (uniq ++ [x]) rej r hr with hu | hl
        · rcases List.mem_append.1 hu with hu | hu
          · exact Or.inl hu
          · simp at hu
            exact Or.inr (hu ▸ List.mem_cons_self x rest)
        · exact Or.inr (List.mem_cons_of_mem x hl)
      · rw [show uniqueSimple dec (x :: rest) uniq rej
            = uniqueSimple dec rest uniq (rej ++ [x.Hostname]) from by
          simp [uniqueSimple, hc1, hdec]] at hr
        rcases ih uniq (rej ++ [x.Hostname]) r hr with hu | hl
        · exact Or.inl hu
        · exact Or.inr (List.mem_cons_of_mem x hl)

lemma uniqueSimple_rejected (ok : String → Bool) :
    ∀ (l uniq : List cnameRecord) (rej : List String),
      (∀ h, recordHostnameInSlice h uniq = true → ok h = true) →
      (∀ h, stringInSlice h rej = true → ok h = false) →
      (uniqueSimple (fun r => ok r.Hostname) l uniq rej).2
        = rej ++ dedupFirstFrom rej
            ((l.filter (fun r => !ok r.Hostname)).map (fun r => r.Hostname)) := by
  intro l
  induction l with
  | nil => intro uniq rej _ _; simp [uniqueSimple, dedupFirstFrom]
  | cons r rest ih =>
    intro uniq rej huniq hrej
    by_cases hin : stringInSlice r.Hostname rej = true
    · have hok : ok r.Hostname = false := hrej _ hin
      rw [show uniqueSimple (fun x => ok x.Hostname) (r :: rest) uniq rej
          = uniqueSimple (fun x => ok x.Hostname) rest uniq rej from by
        simp [uniqueSimple, hin]]
      rw [ih uniq rej huniq hrej]
      simp [List.filter_cons, hok, dedupFirstFrom, hin]
    · by_cases hinu : recordHostnameInSlice r.Hostname uniq = true
      · have hok : ok r.Hostname = true := huniq _ hinu
        rw [show uniqueSimple (fun x => ok x.Hostname) (r :: rest) uniq rej
            = uniqueSimple (fun x => ok x.Hostname) rest uniq rej from by
          simp [uniqueSimple, hinu]]
        rw [ih uniq rej huniq hrej]
        simp [List.filter_cons, hok]
      · by_cases hok : ok r.Hostname = true
        · have huniq' : ∀ h, recordHostnameInSlice h (uniq ++ [r]) = true →
              ok h = true := by
            intro h hh
            rw [recordHostnameInSlice_append, Bool.or_eq_true] at hh
            rcases hh with hh | hh
            · exact huniq h hh
            · rw [recordHostnameInSlice_singleton, decide_eq_true_iff] at hh
              exact hh ▸ hok
          rw [show uniqueSimple (fun x => ok x.Hostname) (r :: rest) uniq rej
              = uniqueSimple (fun x => ok x.Hostname) rest (uniq ++ [r]) rej from by
            simp [uniqueSimple, hin, hinu, hok]]
          rw [ih (uniq ++ [r]) rej huniq' hrej]
          simp [List.filter_cons, hok]
        · have hokf : ok r.Hostname = false := Bool.eq_false_iff.2 hok
          have hrej' : ∀ h, stringInSlice h (rej ++ [r.Hostname]) = true →
              ok h = false := by
            intro h hh
            rw [stringInSlice_append, Bool.or_eq_true] at hh
            rcases hh with hh | hh
            · exact hrej h hh
            · rw [stringInSlice_singleton, decide_eq_true_iff] at hh
              exact hh ▸ hokf
          rw [show uniqueSimple (fun x => ok x.Hostname) (r :: rest) uniq rej
              = uniqueSimple (fun x => ok x.Hostname) rest uniq (rej ++ [r.Hostname]) from by
            simp [uniqueSimple, hin, hinu, hok]]
          rw [ih uniq (rej ++ [r.Hostname]) huniq hrej']
          simp [List.filter_cons, hokf, dedupFirstFrom, hin]

lemma uniqueRecords_count (records : List cnameRecord) (h : String) :
    ((uniqueRecords records).filter (fun r => decide (r.Hostname = h))).length
      = if records.any (fun r => decide (r.Hostname = h)) &&
            conflictFreeB records h then 1 else 0 := by
  rw [uniqueRecords, uniqueRecordsFull_eq]
  have hx := uniqueSimple_count (conflictFreeB records) records [] [] h
  simpa [stringInSlice, recordHostnameInSlice] using hx

lemma uniqueRecords_subset (records : List cnameRecord) (r : cnameRecord) :
    r ∈ uniqueRecords records → r ∈ records := by
  rw [uniqueRecords, uniqueRecordsFull_eq]
  intro hr
  rcases uniqueSimple_fst_subset _ records [] [] r hr with hu | hl
  · simp at hu
  · exact hl

lemma uniqueRejected_eq (records : List cnameRecord) :
    uniqueRejected records
      = dedupFirstFrom []
          ((records.filter (fun r => !conflictFreeB records r.Hostname)).map
            (fun r => r.Hostname)) := by
  rw [uniqueRejected, uniqueRecordsFull_eq]
  have hx := uniqueSimple_rejected (conflictFreeB records) records [] []
    (fun h hh => absurd hh (by simp [recordHostnameInSlice]))
    (fun h hh => absurd hh (by simp [stringInSlice]))
  simpa using hx

lemma uniqueRecords_mem_of_conflictFree (records : List cnameRecord)
    (u : cnameRecord) (hu : u ∈ records)
    (hcf : conflictFreeB records u.Hostname = true) :
    u ∈ uniqueRecords records := by
  have hcount := uniqueRecords_count records u.Hostname
  have hany : records.any (fun r => decide (r.Hostname = u.Hostname)) = true := by
    rw [List.any_eq_true]
    exact ⟨u, hu, by simp⟩
  rw [hany, hcf] at hcount
  simp only [Bool.and_self, if_true] at hcount
  obtain ⟨v, hv⟩ : ∃ v, v ∈ (uniqueRecords records).filter
      (fun r => decide (r.Hostname = u.Hostname)) := by
    cases hfe : (uniqueRecords records).filter
        (fun r => decide (r.Hostname = u.Hostname)) with
    | nil => rw [hfe] at hcount; simp at hcount
    | cons a t => exact ⟨a, hfe ▸ List.mem_cons_self a t⟩
  have hvmem := (List.mem_filter.1 hv).1
  have hvh : v.Hostname = u.Hostname := by
    have := (List.mem_filter.1 hv).2
    simpa using this
  have hvrec : v ∈ records := uniqueRecords_subset records v hvmem
  have ht : v.Target = u.Target :=
    (conflictFreeB_true_iff records u.Hostname).1 hcf v hvrec hvh u hu rfl
  have hvu : v = u := by
    cases v; cases u; simp_all
  exact hvu ▸ hvmem

lemma pruneLoop_eq_filter (env : PruneEnv) (action : String) :
    ∀ records, pruneLoop env action records
      = records.filter (fun u => pruneKeep env action u) := by
  intro records
  induction records with
  | nil => rfl
  | cons u rest ih =>
    by_cases hch : canHandleRecord env.domain u.Hostname = true
    · by_cases haD : action = ChangeActionDelete
      · subst haD
        by_cases how : (env.owners u.Hostname).isEmpty = true
        · cases hres : env.resolve (fqdn u.Hostname) with
          | ok t =>
            simp [pruneLoop, List.filter_cons, pruneKeep, hch, how, hres, ih]
          | error e =>
            by_cases hee : e = DNSError.emptyAnswer
            · simp [pruneLoop, List.filter_cons, pruneKeep, hch, how, hres,
                hee, ih]
            · simp [pruneLoop, List.filter_cons, pruneKeep, hch, how, hres,
                hee, ih]
        · have how' : (env.owners u.Hostname).isEmpty = false :=
            Bool.eq_false_iff.2 how
          simp [pruneLoop, List.filter_cons, pruneKeep, hch, how', ih]
      · by_cases haU : action = ChangeActionUpsert
        · subst haU
          cases hres : env.resolve (fqdn u.Hostname) with
          | ok t =>
            by_cases heq : trimDots t = u.Target
            · simp [pruneLoop, List.filter_cons, pruneKeep, hch, haD, hres,
                heq, ih]
            · simp [pruneLoop, List.filter_cons, pruneKeep, hch, haD, hres,
                heq, ih]
          | error e =>
            simp [pruneLoop, List.filter_cons, pruneKeep, hch, haD, hres, ih]
        · simp [pruneLoop, List.filter_cons, pruneKeep, hch, haD, haU, ih]
    · have hch' : canHandleRecord env.domain u.Hostname = false :=
        Bool.eq_false_iff.2 hch
      simp [pruneLoop, List.filter_cons, pruneKeep, hch', ih]

lemma pruneLoop_mem (env : PruneEnv) (action : String)
    (records : List cnameRecord) (u : cnameRecord) :
    u ∈ pruneLoop env action records ↔
      u ∈ records ∧ pruneKeep env action u = true := by
  rw [pruneLoop_eq_filter]
  simp [List.mem_filter]

lemma pruneKeep_delete_iff (env : PruneEnv) (u : cnameRecord) :
    pruneKeep env ChangeActionDelete u = true ↔
      canHandleRecord env.domain u.Hostname = true ∧ env.owners u.Hostname = [] ∧
      env.resolve (fqdn u.Hostname) ≠ Except.error DNSError.emptyAnswer := by
  cases hres : env.resolve (fqdn u.Hostname) with
  | ok t => simp [pruneKeep, hres, List.isEmpty_iff]
  | error e =>
    by_cases hee : e = DNSError.emptyAnswer
    · subst hee
      simp [pruneKeep, hres, List.isEmpty_iff]
    · simp [pruneKeep, hres, hee, List.isEmpty_iff]

lemma pruneKeep_upsert_iff (env : PruneEnv) (u : cnameRecord) :
    pruneKeep env ChangeActionUpsert u = true ↔
      canHandleRecord env.domain u.Hostname = true ∧
      ((∃ e, env.resolve (fqdn u.Hostname) = Except.error e) ∨
       (∃ t, env.resolve (fqdn u.Hostname) = Except.ok t ∧ trimDots t ≠ u.Target)) := by
  have hUD : ¬ (ChangeActionUpsert = ChangeActionDelete) := by decide
  cases hres : env.resolve (fqdn u.Hostname) with
  | ok t => simp [pruneKeep, hUD, hres]
  | error e => simp [pruneKeep, hUD, hres]

lemma pruneKeep_other (env : PruneEnv) (action : String) (u : cnameRecord)
    (hU : action ≠ ChangeActionUpsert) (hD : action ≠ ChangeActionDelete) :
    pruneKeep env action u = false := by
  simp [pruneKeep, hU, hD]

lemma pruneBatch_subset (env : PruneEnv) (action : String)
    (records : List cnameRecord) (v : cnameRecord) :
    v ∈ pruneBatch env action records → v ∈ pruneLoop env action records :=
  uniqueRecords_subset _ v

/-- Claim C1, amended: after per-record filtering, the dedup step keeps
exactly one record per hostname iff all records in the batch with that
hostname have the same target (first conjunct: the kept count at a hostname
is one exactly when the hostname occurs and the batch is conflict-free
there, and zero otherwise, so conflicting hostnames keep nothing); when
records conflict, metricUpdatesRejected is increased by the number of
distinct conflicting hostnames, one per hostname rather than one per
rejected record (second conjunct: the rejectedRecords list is the
first-occurrence deduplication of the conflicting hostnames). -/
theorem uniqueRecords_dedup_spec :
    (∀ (records : List cnameRecord) (h : String),
      ((uniqueRecords records).filter (fun r => decide (r.Hostname = h))).length
        = if records.any (fun r => decide (r.Hostname = h)) &&
              conflictFreeB records h then 1 else 0)
    ∧ (∀ records : List cnameRecord,
        uniqueRejected records
          = dedupFirstFrom []
              ((records.filter (fun r => !conflictFreeB records r.Hostname)).map
                (fun r => r.Hostname))) :=
  ⟨uniqueRecords_count, uniqueRejected_eq⟩

/-- Claim C1, counterexample: on the two-record batch claiming one hostname
with targets public and private, both records are rejected from the batch,
but the rejectedRecords list holds the hostname once, so
metricUpdatesRejected increases by 1 and not by 2 as the claim states. -/
theorem uniqueRecords_conflict_rejects_once :
    uniqueRecords conflictPair = [] ∧
    uniqueRejected conflictPair = ["shared.example.com"] ∧
    (uniqueRejected conflictPair).length = 1 ∧
    ¬ (uniqueRejected conflictPair).length = 2 :=
  ⟨by decide, by decide, by decide, by decide⟩

/-- Claim C2: a record of a DELETE batch that is in scope and carries no
conflicting duplicate is passed to the mutator iff no live ingress claims
its hostname and the live CNAME query either succeeded or failed with an
error other than errDNSEmptyAnswer; and a hostname that is still claimed,
or that produced errDNSEmptyAnswer with no claimant, never occurs in a
DeleteCnames call. -/
theorem pruneBatch_delete_policy :
    (∀ (env : PruneEnv) (records : List cnameRecord) (u : cnameRecord),
      u ∈ records →
      canHandleRecord env.domain u.Hostname = true →
      (∀ v ∈ records, v.Hostname = u.Hostname → v.Target = u.Target) →
      (u ∈ pruneBatch env ChangeActionDelete records ↔
        env.owners u.Hostname = [] ∧
        env.resolve (fqdn u.Hostname) ≠ Except.error DNSError.emptyAnswer))
    ∧ (∀ (env : PruneEnv) (changes : List cnameChange) (rs : List cnameRecord)
        (h : String),
        (env.owners h ≠ [] ∨
          (env.owners h = [] ∧
            env.resolve (fqdn h) = Except.error DNSError.emptyAnswer)) →
        applyBatch env changes = some (mutatorCall.deleteCnames rs) →
        ∀ v ∈ rs, v.Hostname ≠ h) := by
  constructor
  · intro env records u hmem hch hnc
    constructor
    · intro hin
      have hloop := pruneBatch_subset env _ records u hin
      have hk := ((pruneLoop_mem env _ records u).1 hloop).2
      have hd := (pruneKeep_delete_iff env u).1 hk
      exact ⟨hd.2.1, hd.2.2⟩
    · rintro ⟨how, hres⟩
      have hk : pruneKeep env ChangeActionDelete u = true :=
        (pruneKeep_delete_iff env u).2 ⟨hch, how, hres⟩
      have hloop : u ∈ pruneLoop env ChangeActionDelete records :=
        (pruneLoop_mem env _ records u).2 ⟨hmem, hk⟩
      have hsub : ∀ v, v ∈ pruneLoop env ChangeActionDelete records →
          v ∈ records :=
        fun v hv => ((pruneLoop_mem env _ records v).1 hv).1
      have hcf : conflictFreeB (pruneLoop env ChangeActionDelete records)
          u.Hostname = true := by
        rw [conflictFreeB_true_iff]
        intro r1 h1 e1 r2 h2 e2
        rw [hnc r1 (hsub r1 h1) e1, hnc r2 (hsub r2 h2) e2]
      exact uniqueRecords_mem_of_conflictFree _ u hloop hcf
  · intro env changes rs h hcond happ v hv
    cases changes with
    | nil => simp [applyBatch] at happ
    | cons c0 ct =>
      simp only [applyBatch] at happ
      by_cases hpe : (pruneBatch env c0.Action
          ((c0 :: ct).map (fun c => c.Record))).isEmpty = true
      · rw [if_pos hpe] at happ
        exact absurd happ (by simp)
      · rw [if_neg hpe] at happ
        by_cases hD : c0.Action = ChangeActionDelete
        · rw [if_pos hD] at happ
          have hrs : pruneBatch env c0.Action
              ((c0 :: ct).map (fun c => c.Record)) = rs := by
            have := Option.some.inj happ
            exact mutatorCall.deleteCnames.inj this
          intro hvh
          rw [← hrs, hD] at hv
          have hloop := pruneBatch_subset env _ _ v hv
          have hk := ((pruneLoop_mem env _ _ v).1 hloop).2
          have hd := (pruneKeep_delete_iff env v).1 hk
          rcases hcond with hcl | ⟨_, hce⟩
          · exact hcl (hvh ▸ hd.2.1)
          · exact (hvh ▸ hd.2.2) hce
        · rw [if_neg hD] at happ
          exact absurd (Option.some.inj happ) (by simp)

/-- Claim C2 witness: the policy instantiated on a one-record DELETE batch in
scope under an environment with no claimants and a resolving name. -/
theorem pruneBatch_delete_policy_witness :
    (wRec ∈ [wRec]) ∧ canHandleRecord wEnv.domain wRec.Hostname = true ∧
    (∀ v ∈ [wRec], v.Hostname = wRec.Hostname → v.Target = wRec.Target) ∧
    (wRec ∈ pruneBatch wEnv ChangeActionDelete [wRec] ↔
      wEnv.owners wRec.Hostname = [] ∧
      wEnv.resolve (fqdn wRec.Hostname) ≠ Except.error DNSError.emptyAnswer) :=
  ⟨by decide, by decide, by decide,
    pruneBatch_delete_policy.1 wEnv [wRec] wRec (by decide) (by decide)
      (by decide)⟩

/-- Claim C3: a record of an UPSERT batch that is in scope and carries no
conflicting duplicate is passed to the mutator iff the live CNAME query
failed with any error or the resolved target with dots trimmed differs from
the record target; and a record whose resolved target, trimmed, equals its
target never occurs in an UpsertCnames call. -/
theorem pruneBatch_upsert_policy :
    (∀ (env : PruneEnv) (records : List cnameRecord) (u : cnameRecord),
      u ∈ records →
      canHandleRecord env.domain u.Hostname = true →
      (∀ v ∈ records, v.Hostname = u.Hostname → v.Target = u.Target) →
      (u ∈ pruneBatch env ChangeActionUpsert records ↔
        ((∃ e, env.resolve (fqdn u.Hostname) = Except.error e) ∨
         (∃ t, env.resolve (fqdn u.Hostname) = Except.ok t ∧
           trimDots t ≠ u.Target))))
    ∧ (∀ (env : PruneEnv) (changes : List cnameChange) (rs : List cnameRecord)
        (u : cnameRecord) (t : String),
        env.resolve (fqdn u.Hostname) = Except.ok t →
        trimDots t = u.Target →
        applyBatch env changes = some (mutatorCall.upsertCnames rs) →
        u ∉ rs) := by
  constructor
  · intro env records u hmem hch hnc
    constructor
    · intro hin
      have hloop := pruneBatch_subset env _ records u hin
      have hk := ((pruneLoop_mem env _ records u).1 hloop).2
      exact ((pruneKeep_upsert_iff env u).1 hk).2
    · intro hres
      have hk : pruneKeep env ChangeActionUpsert u = true :=
        (pruneKeep_upsert_iff env u).2 ⟨hch, hres⟩
      have hloop : u ∈ pruneLoop env ChangeActionUpsert records :=
        (pruneLoop_mem env _ records u).2 ⟨hmem, hk⟩
      have hsub : ∀ v, v ∈ pruneLoop env ChangeActionUpsert records →
          v ∈ records :=
        fun v hv => ((pruneLoop_mem env _ records v).1 hv).1
      have hcf : conflictFreeB (pruneLoop env ChangeActionUpsert records)
          u.Hostname = true := by
        rw [conflictFreeB_true_iff]
        intro r1 h1 e1 r2 h2 e2
        rw [hnc r1 (hsub r1 h1) e1, hnc r2 (hsub r2 h2) e2]
      exact uniqueRecords_mem_of_conflictFree _ u hloop hcf
  · intro env changes rs u t hres htr happ hin
    cases changes with
    | nil => simp [applyBatch] at happ
    | cons c0 ct =>
      simp only [applyBatch] at happ
      by_cases hpe : (pruneBatch env c0.Action
          ((c0 :: ct).map (fun c => c.Record))).isEmpty = true
      · rw [if_pos hpe] at happ
        exact absurd happ (by simp)
      · rw [if_neg hpe] at happ
        by_cases hD : c0.Action = ChangeActionDelete
        · rw [if_pos hD] at happ
          exact absurd (Option.some.inj happ) (by simp)
        · rw [if_neg hD] at happ
          have hrs : pruneBatch env c0.Action
              ((c0 :: ct).map (fun c => c.Record)) = rs := by
            have := Option.some.inj happ
            exact mutatorCall.upsertCnames.inj this
          rw [← hrs] at hin
          have hloop := pruneBatch_subset env _ _ u hin
          have hk := ((pruneLoop_mem env _ _ u).1 hloop).2
          by_cases hU : c0.Action = ChangeActionUpsert
          · rw [hU] at hk
            rcases ((pruneKeep_upsert_iff env u).1 hk).2 with ⟨e, he⟩ | ⟨t2, ht2, hne⟩
            · rw [hres] at he
              exact absurd he (by simp)
            · rw [hres] at ht2
              exact hne ((Except.ok.inj ht2) ▸ htr)
          · rw [pruneKeep_other env c0.Action u hU hD] at hk
            exact absurd hk (by simp)

/-- Claim C3 witness: the policy instantiated on a one-record UPSERT batch
whose hostname resolves to a target other than the record target. -/
theorem pruneBatch_upsert_policy_witness :
    (wRec ∈ [wRec]) ∧ canHandleRecord wEnv.domain wRec.Hostname = true ∧
    (∀ v ∈ [wRec], v.Hostname = wRec.Hostname → v.Target = wRec.Target) ∧
    (wRec ∈ pruneBatch wEnv ChangeActionUpsert [wRec] ↔
      ((∃ e, wEnv.resolve (fqdn wRec.Hostname) = Except.error e) ∨
       (∃ t, wEnv.resolve (fqdn wRec.Hostname) = Except.ok t ∧
         trimDots t ≠ wRec.Target))) :=
  ⟨by decide, by decide, by decide,
    pruneBatch_upsert_policy.1 wEnv [wRec] wRec (by decide) (by decide)
      (by decide)⟩

/-- Claim C5: the scope check accepts a hostname iff, after trimming dots at
the ends of both the hostname and the apex, the hostname has the exact form
of one nonempty dot-free label, a dot, then the apex as a literal character
sequence; every record of a pruned batch passed on towards the mutator has
passed the scope check; and the scope stage increments metricUpdatesRejected
once per record the check refuses. -/
theorem canHandleRecord_scope :
    (∀ zone record : String,
      canHandleRecord zone record = true ↔
        ∃ label : List Char, label ≠ [] ∧ '.' ∉ label ∧
          trimDotsList record.data = label ++ '.' :: trimDotsList zone.data)
    ∧ (∀ (env : PruneEnv) (action : String) (records : List cnameRecord)
        (v : cnameRecord), v ∈ pruneBatch env action records →
        canHandleRecord env.domain v.Hostname = true)
    ∧ (∀ (env : PruneEnv) (records : List cnameRecord),
        pruneScopeRejected env records
          = (records.filter
              (fun u => !canHandleRecord env.domain u.Hostname)).length) := by
  refine ⟨?_, ?_, ?_⟩
  · intro zone record
    cases hsp : firstLabelSplit (trimDotsList record.data) with
    | none =>
      simp only [canHandleRecord, hsp, Bool.false_eq_true, false_iff]
      rintro ⟨label, hne, hnd, heq⟩
      rw [heq, firstLabelSplit_of_label label _ hnd] at hsp
      exact Option.noConfusion hsp
    | some p =>
      obtain ⟨l, rest⟩ := p
      simp only [canHandleRecord, hsp, Bool.and_eq_true, decide_eq_true_iff]
      constructor
      · rintro ⟨hne, hrest⟩
        obtain ⟨heq, hnd⟩ := firstLabelSplit_sound _ l rest hsp
        exact ⟨l, hne, hnd, by rw [heq, hrest]⟩
      · rintro ⟨label, hne, hnd, heq⟩
        rw [heq, firstLabelSplit_of_label label _ hnd] at hsp
        obtain ⟨hl, hr⟩ := Prod.mk.injEq .. ▸ Option.some.inj hsp
        exact ⟨hl ▸ hne, hr ▸ rfl⟩
  · intro env action records v hv
    have hloop := pruneBatch_subset env action records v hv
    have hk := ((pruneLoop_mem env action records v).1 hloop).2
    simp only [pruneKeep, Bool.and_eq_true] at hk
    exact hk.1
  · intro env records
    induction records with
    | nil => rfl
    | cons u rest ih =>
      by_cases hch : (!canHandleRecord env.domain u.Hostname) = true
      · simp [pruneScopeRejected, List.filter_cons, hch, ih, Nat.add_comm]
      · simp [pruneScopeRejected, List.filter_cons, hch, ih]

/-- Claim C5 witness: a record surviving a concrete prune run has passed the
scope check. -/
theorem canHandleRecord_scope_witness :
    (wRec ∈ pruneBatch wEnv ChangeActionDelete [wRec]) ∧
    canHandleRecord wEnv.domain wRec.Hostname = true :=
  ⟨by decide,
    canHandleRecord_scope.2.1 wEnv ChangeActionDelete [wRec] wRec (by decide)⟩

lemma resolveAux_allFail (exch : String → String → exchangeResult)
    (name : String) :
    ∀ (nss : List String) (e0 : Option DNSError) (h : nss ≠ []),
      (∀ p ∈ nss, noAnswer (exch name p)) →
      resolveAux exch name nss e0 = .fail (errOf (exch name (nss.getLast h))) := by
  intro nss
  induction nss with
  | nil => intro e0 h; exact absurd rfl h
  | cons ns rest ih =>
    intro e0 h hall
    have hns := hall ns (List.mem_cons_self _ _)
    cases rest with
    | nil =>
      rcases hns with ⟨c, hc⟩ | hr
      · simp [resolveAux, hc, List.getLast, errOf]
      · simp [resolveAux, hr, List.getLast, errOf]
    | cons ns2 rest2 =>
      have hrest : (ns2 :: rest2 : List String) ≠ [] := by simp
      have hgl : (ns :: ns2 :: rest2).getLast h = (ns2 :: rest2).getLast hrest :=
        List.getLast_cons hrest
      rw [hgl]
      have htail := fun p hp => hall p (List.mem_cons_of_mem _ hp)
      rcases hns with ⟨c, hc⟩ | hr
      · rw [show resolveAux exch name (ns :: ns2 :: rest2) e0
            = resolveAux exch name (ns2 :: rest2) (some (.transport c)) from by
          simp [resolveAux, hc]]
        exact ih (some (.transport c)) hrest htail
      · rw [show resolveAux exch name (ns :: ns2 :: rest2) e0
            = resolveAux exch name (ns2 :: rest2) (some .emptyAnswer) from by
          simp [resolveAux, hr]]
        exact ih (some .emptyAnswer) hrest htail

lemma resolveAux_prefix (exch : String → String → exchangeResult)
    (name : String) :
    ∀ (pre : List String) (e0 : Option DNSError) (ns : String)
      (post : List String) (t : String) (more : List rrAnswer),
      (∀ p ∈ pre, noAnswer (exch name p)) →
      exch name ns = .reply (.cname t :: more) →
      resolveAux exch name (pre ++ ns :: post) e0 = .ok t := by
  intro pre
  induction pre with
  | nil =>
    intro e0 ns post t more _ hns
    simp [resolveAux, hns]
  | cons p0 rest ih =>
    intro e0 ns post t more hall hns
    have hp0 := hall p0 (List.mem_cons_self _ _)
    have htail := fun q hq => hall q (List.mem_cons_of_mem _ hq)
    rw [List.cons_append]
    rcases hp0 with ⟨c, hc⟩ | hr
    · rw [show resolveAux exch name (p0 :: (rest ++ ns :: post)) e0
          = resolveAux exch name (rest ++ ns :: post) (some (.transport c)) from by
        simp [resolveAux, hc]]
      exact ih _ ns post t more htail hns
    · rw [show resolveAux exch name (p0 :: (rest ++ ns :: post)) e0
          = resolveAux exch name (rest ++ ns :: post) (some .emptyAnswer) from by
        simp [resolveAux, hr]]
      exact ih _ ns post t more htail hns

/-- Claim C8: the resolver tries the nameservers in order. A transport error
is remembered as the last error and the next server is tried; a reply with
zero answers is remembered as errDNSEmptyAnswer and the next server is
tried; the first server whose reply carries at least one answer yields the
first answer target with nil error and stops the iteration; and when every
server was tried without an answer, the error remembered from the last
server is returned. -/
theorem resolveCname_fallthrough :
    (∀ (exch : String → String → exchangeResult) (name ns : String)
      (rest : List String) (e : Option DNSError) (c : Nat),
      exch name ns = .transportFailure c →
      resolveAux exch name (ns :: rest) e
        = resolveAux exch name rest (some (.transport c)))
    ∧ (∀ (exch : String → String → exchangeResult) (name ns : String)
        (rest : List String) (e : Option DNSError),
        exch name ns = .reply [] →
        resolveAux exch name (ns :: rest) e
          = resolveAux exch name rest (some .emptyAnswer))
    ∧ (∀ (exch : String → String → exchangeResult) (name ns : String)
        (rest : List String) (e : Option DNSError) (t : String)
        (more : List rrAnswer),
        exch name ns = .reply (.cname t :: more) →
        resolveAux exch name (ns :: rest) e = .ok t)
    ∧ (∀ (exch : String → String → exchangeResult) (name : String)
        (pre : List String) (ns : String) (post : List String) (t : String)
        (more : List rrAnswer),
        (∀ p ∈ pre, noAnswer (exch name p)) →
        exch name ns = .reply (.cname t :: more) →
        resolveCname name (pre ++ ns :: post) exch = .ok t)
    ∧ (∀ (exch : String → String → exchangeResult) (name : String)
        (nss : List String) (h : nss ≠ []),
        (∀ p ∈ nss, noAnswer (exch name p)) →
        resolveCname name nss exch
          = .fail (errOf (exch name (nss.getLast h)))) := by
  refine ⟨?_, ?_, ?_, ?_, ?_⟩
  · intro exch name ns rest e c hc
    simp [resolveAux, hc]
  · intro exch name ns rest e hr
    simp [resolveAux, hr]
  · intro exch name ns rest e t more hns
    simp [resolveAux, hns]
  · intro exch name pre ns post t more hall hns
    exact resolveAux_prefix exch name pre none ns post t more hall hns
  · intro exch name nss h hall
    exact resolveAux_allFail exch name nss none h hall

/-- Claim C8 witness: one transport failure steps to the next server with
the error remembered. -/
theorem resolveCname_fallthrough_witness :
    ((fun (_ : String) (ns : String) =>
        if ns = "ns1" then exchangeResult.transportFailure 7
        else exchangeResult.reply []) "x." "ns1"
      = exchangeResult.transportFailure 7) ∧
    resolveAux
      (fun _ ns =>
        if ns = "ns1" then exchangeResult.transportFailure 7
        else exchangeResult.reply []) "x." ["ns1"] none
      = resolveAux
          (fun _ ns =>
            if ns = "ns1" then exchangeResult.transportFailure 7
            else exchangeResult.reply []) "x." []
          (some (DNSError.transport 7)) :=
  ⟨by decide,
    resolveCname_fallthrough.1 _ "x." "ns1" [] none 7 (by decide)⟩

/-- Claim C9: on an empty nameserver list the resolver returns the empty
target with nil error, success with an empty resolved target, for any
exchange behavior and any name; prune then treats the name as resolving to
the empty string rather than as an error or errDNSEmptyAnswer: an in-scope
UPSERT record is kept exactly when its target differs from the empty
string, and an in-scope unclaimed DELETE record is kept (a nil error is not
the empty-answer case). -/
theorem resolveCname_empty_nameservers :
    (∀ (name : String) (exch : String → String → exchangeResult),
      resolveCname name [] exch = .ok "")
    ∧ (∀ (env : PruneEnv) (u : cnameRecord),
        env.resolve (fqdn u.Hostname) = Except.ok "" →
        canHandleRecord env.domain u.Hostname = true →
        (pruneLoop env ChangeActionUpsert [u]
            = (if u.Target = "" then [] else [u])) ∧
        (env.owners u.Hostname = [] →
          pruneLoop env ChangeActionDelete [u] = [u])) := by
  constructor
  · intro name exch
    rfl
  · intro env u hres hch
    have hUD : ¬ (ChangeActionUpsert = ChangeActionDelete) := by decide
    have htd : trimDots "" = "" := rfl
    constructor
    · by_cases ht : u.Target = ""
      · simp [pruneLoop, hch, hres, hUD, htd, ht]
      · have hne : ("" : String) ≠ u.Target := fun e => ht e.symm
        simp [pruneLoop, hch, hres, hUD, htd, ht, hne]
    · intro how
      simp [pruneLoop, hch, hres, how]

/-- Claim C9 witness: the prune consequence instantiated on a record whose
query pair is success with the empty target. -/
theorem resolveCname_empty_nameservers_witness :
    ((PruneEnv.mk "example.com" (fun _ => []) (fun _ => Except.ok "")).resolve
        (fqdn wRec.Hostname) = Except.ok "") ∧
    canHandleRecord
      (PruneEnv.mk "example.com" (fun _ => []) (fun _ => Except.ok "")).domain
      wRec.Hostname = true ∧
    ((pruneLoop (PruneEnv.mk "example.com" (fun _ => []) (fun _ => Except.ok ""))
        ChangeActionUpsert [wRec] = (if wRec.Target = "" then [] else [wRec])) ∧
     ((PruneEnv.mk "example.com" (fun _ => []) (fun _ => Except.ok "")).owners
          wRec.Hostname = [] →
       pruneLoop (PruneEnv.mk "example.com" (fun _ => []) (fun _ => Except.ok ""))
          ChangeActionDelete [wRec] = [wRec])) :=
  ⟨rfl, by decide,
    resolveCname_empty_nameservers.2
      (PruneEnv.mk "example.com" (fun _ => []) (fun _ => Except.ok "")) wRec
      rfl (by decide)⟩

/-- Claim C10: when the first answer record of the first answered reply is
not a CNAME, the unchecked type assertion fails and resolveCname panics
instead of returning a target or an error. -/
theorem resolveCname_panics_on_foreign_answer :
    (∀ (exch : String → String → exchangeResult) (name ns : String)
      (rest : List String) (k : Nat) (more : List rrAnswer),
      exch name ns = .reply (.other k :: more) →
      (∀ e, resolveAux exch name (ns :: rest) e = .panicked) ∧
      resolveCname name (ns :: rest) exch = .panicked ∧
      (∀ t, resolveCname name (ns :: rest) exch ≠ .ok t) ∧
      (∀ er, resolveCname name (ns :: rest) exch ≠ .fail er)) := by
  intro exch name ns rest k more hns
  refine ⟨fun e => by simp [resolveAux, hns], ?_, ?_, ?_⟩
  · simp [resolveCname, resolveAux, hns]
  · intro t
    simp [resolveCname, resolveAux, hns]
  · intro er
    simp [resolveCname, resolveAux, hns]

/-- Claim C10 witness: a reply whose first answer is a non-CNAME record
drives a concrete resolution to the panic outcome. -/
theorem resolveCname_panics_on_foreign_answer_witness :
    ((fun (_ : String) (_ : String) => exchangeResult.reply [rrAnswer.other 1])
        "x." "ns1" = exchangeResult.reply [rrAnswer.other 1]) ∧
    ((∀ e, resolveAux
        (fun _ _ => exchangeResult.reply [rrAnswer.other 1]) "x." ["ns1"] e
          = .panicked) ∧
     resolveCname "x." ["ns1"]
        (fun _ _ => exchangeResult.reply [rrAnswer.other 1]) = .panicked ∧
     (∀ t, resolveCname "x." ["ns1"]
        (fun _ _ => exchangeResult.reply [rrAnswer.other 1]) ≠ .ok t) ∧
     (∀ er, resolveCname "x." ["ns1"]
        (fun _ _ => exchangeResult.reply [rrAnswer.other 1]) ≠ .fail er)) :=
  ⟨by decide,
    resolveCname_panics_on_foreign_answer
      (fun _ _ => exchangeResult.reply [rrAnswer.other 1]) "x." "ns1" [] 1 []
      (by decide)⟩

lemma queueUpdates_action (action target : String) (hostnames : List String)
    (c : cnameChange) : c ∈ queueUpdates action hostnames target →
    c.Action = action := by
  intro hc
  simp only [queueUpdates, List.mem_map] at hc
  obtain ⟨h, _, he⟩ := hc
  rw [← he]

lemma processQueue_invariant :
    ∀ (evs : List queueEvent) (buf : List cnameChange),
      (∀ e ∈ evs, actionOkB e = true) →
      (∀ c ∈ buf, c.Action = ChangeActionUpsert ∨ c.Action = ChangeActionDelete) →
      (∀ c1 ∈ buf, ∀ c2 ∈ buf, c1.Action = c2.Action) →
      ∀ b ∈ processUpdateQueue evs buf,
        b ≠ [] ∧ ∀ c1 ∈ b, ∀ c2 ∈ b, c1.Action = c2.Action := by
  intro evs
  induction evs with
  | nil =>
    intro buf _ _ hhom b hb
    simp only [processUpdateQueue] at hb
    by_cases he : buf.isEmpty = true
    · rw [if_pos he] at hb
      simp at hb
    · rw [if_neg he] at hb
      simp only [List.mem_singleton] at hb
      subst hb
      refine ⟨?_, hhom⟩
      intro hbe
      rw [hbe] at he
      exact he rfl
  | cons ev rest ih =>
    intro buf hevs hok hhom b hb
    have hevs' := fun e he => hevs e (List.mem_cons_of_mem _ he)
    cases ev with
    | idle =>
      simp only [processUpdateQueue] at hb
      by_cases he : buf.isEmpty = true
      · rw [if_pos he] at hb
        exact ih buf hevs' hok hhom b hb
      · rw [if_neg he] at hb
        rcases List.mem_cons.1 hb with hb | hb
        · subst hb
          refine ⟨?_, hhom⟩
          intro hbe
          rw [hbe] at he
          exact he rfl
        · exact ih [] hevs' (by simp) (by simp) b hb
    | recv c =>
      have hcok : c.Action = ChangeActionUpsert ∨ c.Action = ChangeActionDelete := by
        have hx := hevs (.recv c) (List.mem_cons_self _ _)
        simp only [actionOkB, Bool.or_eq_true, decide_eq_true_iff] at hx
        exact hx
      have hsok : ∀ x ∈ [c], x.Action = ChangeActionUpsert ∨
          x.Action = ChangeActionDelete := by
        intro x hx
        simp only [List.mem_singleton] at hx
        subst hx
        exact hcok
      have hshom : ∀ c1 ∈ [c], ∀ c2 ∈ [c], c1.Action = c2.Action := by
        intro c1 h1 c2 h2
        simp only [List.mem_singleton] at h1 h2
        subst h1
        subst h2
        rfl
      cases buf with
      | nil =>
        simp only [processUpdateQueue] at hb
        exact ih [c] hevs' hsok hshom b hb
      | cons b0 bt =>
        simp only [processUpdateQueue] at hb
        by_cases hfl : ((b0.Action = ChangeActionDelete ∧
            c.Action ≠ ChangeActionDelete) ∨
            (b0.Action ≠ ChangeActionDelete ∧ c.Action = ChangeActionDelete))
        · rw [if_pos hfl] at hb
          rcases List.mem_cons.1 hb with hb | hb
          · subst hb
            exact ⟨List.cons_ne_nil b0 bt, hhom⟩
          · exact ih [c] hevs' hsok hshom b hb
        · rw [if_neg hfl] at hb
          have hb0 := hok b0 (List.mem_cons_self _ _)
          have hceq : c.Action = b0.Action := by
            rcases hb0 with hU | hD
            · have hbD : b0.Action ≠ ChangeActionDelete := by
                rw [hU]; decide
              have hcD : c.Action ≠ ChangeActionDelete :=
                fun q => hfl (Or.inr ⟨hbD, q⟩)
              rcases hcok with hcU | hcD2
              · rw [hcU, hU]
              · exact absurd hcD2 hcD
            · have hcD : c.Action = ChangeActionDelete := by
                by_contra hq
                exact hfl (Or.inl ⟨hD, hq⟩)
              rw [hcD, hD]
          have hall : ∀ x ∈ (b0 :: bt) ++ [c], x.Action = b0.Action := by
            intro x hx
            rcases List.mem_append.1 hx with hx | hx
            · exact hhom x hx b0 (List.mem_cons_self _ _)
            · simp only [List.mem_singleton] at hx
              subst hx
              exact hceq
          have hok' : ∀ x ∈ (b0 :: bt) ++ [c], x.Action = ChangeActionUpsert ∨
              x.Action = ChangeActionDelete := by
            intro x hx
            rw [hall x hx]
            exact hb0
          have hhom' : ∀ c1 ∈ (b0 :: bt) ++ [c], ∀ c2 ∈ (b0 :: bt) ++ [c],
              c1.Action = c2.Action := by
            intro c1 h1 c2 h2
            rw [hall c1 h1, hall c2 h2]
          exact ih _ hevs' hok' hhom' b hb

/-- Claim C4: the handler only enqueues the two route53 actions; for a
stream of such changes, every batch the select loop hands to applyBatch is
nonempty and action-homogeneous, so no batch mixes UPSERT and DELETE; and a
received change whose delete-ness differs from that of the first buffered
change flushes the buffer before the change starts a fresh buffer. -/
theorem processUpdateQueue_homogeneous :
    (∀ (sats : List selectorAndTarget) (key : String) (et : eventType)
      (oldIng newIng : Ingress) (c : cnameChange),
      c ∈ handlerChanges sats key et oldIng newIng →
      c.Action = ChangeActionUpsert ∨ c.Action = ChangeActionDelete)
    ∧ (∀ evs : List queueEvent,
        (∀ e ∈ evs, actionOkB e = true) →
        ∀ b ∈ processUpdateQueue evs [],
          b ≠ [] ∧ ∀ c1 ∈ b, ∀ c2 ∈ b, c1.Action = c2.Action)
    ∧ (∀ (rest : List queueEvent) (c b0 : cnameChange) (bt : List cnameChange),
        ((b0.Action = ChangeActionDelete ∧ c.Action ≠ ChangeActionDelete) ∨
         (b0.Action ≠ ChangeActionDelete ∧ c.Action = ChangeActionDelete)) →
        processUpdateQueue (queueEvent.recv c :: rest) (b0 :: bt)
          = (b0 :: bt) :: processUpdateQueue rest [c]) := by
  refine ⟨?_, ?_, ?_⟩
  · intro sats key et oldIng newIng c hc
    cases et with
    | added =>
      by_cases ht : getTargetForIngress sats newIng = ""
      · simp [handlerChanges, ht] at hc
      · by_cases hh : (getHostnamesFromIngress newIng).isEmpty = true
        · simp [handlerChanges, ht, hh] at hc
        · simp only [handlerChanges, if_neg ht, if_neg hh] at hc
          exact Or.inl (queueUpdates_action _ _ _ c hc)
    | modified =>
      simp only [handlerChanges] at hc
      by_cases hg : (diffStringSlices (getHostnamesFromIngress oldIng)
          (getHostnamesFromIngress newIng)).isEmpty = true ∧
          labelIndex newIng.labels key = labelIndex oldIng.labels key
      · rw [if_pos hg] at hc
        simp at hc
      · rw [if_neg hg] at hc
        rcases List.mem_append.1 hc with hc | hc
        · by_cases ht : getTargetForIngress sats newIng = ""
          · simp [ht] at hc
          · by_cases hh : (getHostnamesFromIngress newIng).isEmpty = true
            · simp [ht, hh] at hc
            · rw [if_neg ht, if_neg hh] at hc
              exact Or.inl (queueUpdates_action _ _ _ c hc)
        · by_cases ht : getTargetForIngress sats oldIng = ""
          · simp [ht] at hc
          · by_cases hh : (diffStringSlices (getHostnamesFromIngress oldIng)
                (getHostnamesFromIngress newIng)).isEmpty = true
            · simp [ht, hh] at hc
            · rw [if_neg ht, if_neg hh] at hc
              exact Or.inr (queueUpdates_action _ _ _ c hc)
    | deleted =>
      by_cases ht : getTargetForIngress sats oldIng = ""
      · simp [handlerChanges, ht] at hc
      · by_cases hh : (getHostnamesFromIngress oldIng).isEmpty = true
        · simp [handlerChanges, ht, hh] at hc
        · simp only [handlerChanges, if_neg ht, if_neg hh] at hc
          exact Or.inr (queueUpdates_action _ _ _ c hc)
    | otherEvent => simp [handlerChanges] at hc
  · intro evs hevs b hb
    exact processQueue_invariant evs [] hevs (by simp) (by simp) b hb
  · intro rest c b0 bt hfl
    simp only [processUpdateQueue]
    rw [if_pos hfl]

/-- Claim C4 witness: a two-event stream, one upsert then one delete,
produces only nonempty homogeneous batches. -/
theorem processUpdateQueue_homogeneous_witness :
    (∀ e ∈ [queueEvent.recv ⟨"UPSERT", ⟨"a.example.com", "t"⟩⟩,
            queueEvent.recv ⟨"DELETE", ⟨"a.example.com", "t"⟩⟩],
      actionOkB e = true) ∧
    (∀ b ∈ processUpdateQueue
        [queueEvent.recv ⟨"UPSERT", ⟨"a.example.com", "t"⟩⟩,
         queueEvent.recv ⟨"DELETE", ⟨"a.example.com", "t"⟩⟩] [],
      b ≠ [] ∧ ∀ c1 ∈ b, ∀ c2 ∈ b, c1.Action = c2.Action) :=
  ⟨by decide,
    processUpdateQueue_homogeneous.2.1
      [queueEvent.recv ⟨"UPSERT", ⟨"a.example.com", "t"⟩⟩,
       queueEvent.recv ⟨"DELETE", ⟨"a.example.com", "t"⟩⟩] (by decide)⟩

lemma diffStringSlices_self (l : List String) : diffStringSlices l l = [] := by
  rw [diffStringSlices, List.filter_eq_nil_iff]
  intro a ha
  simp [stringInSlice_true_iff, ha]

/-- Claim C6: a MODIFIED event whose removed-hostnames difference is empty
and whose old and new ingresses carry the same value of the target label key
enqueues nothing; in particular a resync event delivering the same ingress
as old and new enqueues nothing. -/
theorem handler_modified_noop_guard :
    (∀ (sats : List selectorAndTarget) (key : String) (oldIng newIng : Ingress),
      diffStringSlices (getHostnamesFromIngress oldIng)
        (getHostnamesFromIngress newIng) = [] →
      labelIndex newIng.labels key = labelIndex oldIng.labels key →
      handlerChanges sats key eventType.modified oldIng newIng = [])
    ∧ (∀ (sats : List selectorAndTarget) (key : String) (ing : Ingress),
        handlerChanges sats key eventType.modified ing ing = []) := by
  have hmain : ∀ (sats : List selectorAndTarget) (key : String)
      (oldIng newIng : Ingress),
      diffStringSlices (getHostnamesFromIngress oldIng)
        (getHostnamesFromIngress newIng) = [] →
      labelIndex newIng.labels key = labelIndex oldIng.labels key →
      handlerChanges sats key eventType.modified oldIng newIng = [] := by
    intro sats key oldIng newIng hd hl
    simp only [handlerChanges]
    rw [if_pos ⟨by rw [hd]; rfl, hl⟩]
  refine ⟨hmain, ?_⟩
  intro sats key ing
  exact hmain sats key ing ing (diffStringSlices_self _) rfl

/-- Claim C6 witness: the guard instantiated on one concrete ingress
delivered unchanged, as a resync does. -/
theorem handler_modified_noop_guard_witness :
    (diffStringSlices
        (getHostnamesFromIngress
          ⟨"exampleB", [("tier", "public")], ["bar.example.com"]⟩)
        (getHostnamesFromIngress
          ⟨"exampleB", [("tier", "public")], ["bar.example.com"]⟩) = []) ∧
    (labelIndex
        (Ingress.mk "exampleB" [("tier", "public")] ["bar.example.com"]).labels
        "tier"
      = labelIndex
          (Ingress.mk "exampleB" [("tier", "public")] ["bar.example.com"]).labels
          "tier") ∧
    handlerChanges (mkSats "tier" ["public", "private"]) "tier"
      eventType.modified
      ⟨"exampleB", [("tier", "public")], ["bar.example.com"]⟩
      ⟨"exampleB", [("tier", "public")], ["bar.example.com"]⟩ = [] :=
  ⟨by decide, rfl,
    handler_modified_noop_guard.1 (mkSats "tier" ["public", "private"]) "tier"
      ⟨"exampleB", [("tier", "public")], ["bar.example.com"]⟩
      ⟨"exampleB", [("tier", "public")], ["bar.example.com"]⟩
      (by decide) rfl⟩

lemma getTargetForIngress_first_match :
    ∀ (key : String) (targets : List String) (ing : Ingress),
      (∃ l1 t l2, targets = l1 ++ t :: l2 ∧
        selectorMatches key t ing.labels = true ∧
        (∀ t' ∈ l1, selectorMatches key t' ing.labels = false) ∧
        getTargetForIngress (mkSats key targets) ing = t)
      ∨ ((∀ t ∈ targets, selectorMatches key t ing.labels = false) ∧
        getTargetForIngress (mkSats key targets) ing = "") := by
  intro key targets ing
  induction targets with
  | nil =>
    right
    exact ⟨by simp, rfl⟩
  | cons t ts ih =>
    by_cases hm : selectorMatches key t ing.labels = true
    · left
      refine ⟨[], t, ts, rfl, hm, by simp, ?_⟩
      simp [getTargetForIngress, mkSats, List.find?_cons_of_pos, hm]
    · have hmf : selectorMatches key t ing.labels = false := Bool.eq_false_iff.2 hm
      have hstep : getTargetForIngress (mkSats key (t :: ts)) ing
          = getTargetForIngress (mkSats key ts) ing := by
        simp only [getTargetForIngress, mkSats, List.map_cons]
        rw [List.find?_cons_of_neg _ (by simpa using hm)]
      rcases ih with ⟨l1, t', l2, heq, hm', hall, hres⟩ | ⟨hall, hres⟩
      · left
        refine ⟨t :: l1, t', l2, by rw [heq]; rfl, hm', ?_, by rw [hstep]; exact hres⟩
        intro x hx
        rcases List.mem_cons.1 hx with hx | hx
        · subst hx
          exact hmf
        · exact hall x hx
      · right
        refine ⟨?_, by rw [hstep]; exact hres⟩
        intro x hx
        rcases List.mem_cons.1 hx with hx | hx
        · subst hx
          exact hmf
        · exact hall x hx

/-- Claim C7: getTargetForIngress returns the first target in the configured
order whose equality selector matches the ingress labels, and the empty
no-target value when none matches; and an ingress with the empty target
produces no enqueued records, whether it arrives as ADDED, as DELETED, or
unchanged as MODIFIED. -/
theorem getTargetForIngress_spec :
    (∀ (key : String) (targets : List String) (ing : Ingress),
      (∃ l1 t l2, targets = l1 ++ t :: l2 ∧
        selectorMatches key t ing.labels = true ∧
        (∀ t' ∈ l1, selectorMatches key t' ing.labels = false) ∧
        getTargetForIngress (mkSats key targets) ing = t)
      ∨ ((∀ t ∈ targets, selectorMatches key t ing.labels = false) ∧
        getTargetForIngress (mkSats key targets) ing = ""))
    ∧ (∀ (sats : List selectorAndTarget) (key : String) (ing other : Ingress),
        getTargetForIngress sats ing = "" →
        handlerChanges sats key eventType.added other ing = [] ∧
        handlerChanges sats key eventType.deleted ing other = [] ∧
        handlerChanges sats key eventType.modified ing ing = []) := by
  refine ⟨getTargetForIngress_first_match, ?_⟩
  intro sats key ing other ht
  refine ⟨?_, ?_, ?_⟩
  · simp [handlerChanges, ht]
  · simp [handlerChanges, ht]
  · simp only [handlerChanges]
    rw [if_pos ⟨by rw [diffStringSlices_self]; rfl, by trivial⟩]

/-- Claim C7 witness: an ingress matching no selector gets the empty target
and produces no records for ADDED and DELETED events. -/
theorem getTargetForIngress_spec_witness :
    (getTargetForIngress (mkSats "tier" ["public", "private"])
        ⟨"exampleA", [], ["foo1.example.com"]⟩ = "") ∧
    (handlerChanges (mkSats "tier" ["public", "private"]) "tier"
        eventType.added ⟨"exampleA", [], ["foo1.example.com"]⟩
        ⟨"exampleA", [], ["foo1.example.com"]⟩ = [] ∧
     handlerChanges (mkSats "tier" ["public", "private"]) "tier"
        eventType.deleted ⟨"exampleA", [], ["foo1.example.com"]⟩
        ⟨"exampleA", [], ["foo1.example.com"]⟩ = [] ∧
     handlerChanges (mkSats "tier" ["public", "private"]) "tier"
        eventType.modified ⟨"exampleA", [], ["foo1.example.com"]⟩
        ⟨"exampleA", [], ["foo1.example.com"]⟩ = []) :=
  ⟨by decide,
    getTargetForIngress_spec.2 (mkSats "tier" ["public", "private"]) "tier"
      ⟨"exampleA", [], ["foo1.example.com"]⟩
      ⟨"exampleA", [], ["foo1.example.com"]⟩ (by decide)⟩
